import Mathlib

/-!
Shallow embedding of `fback.py` (the fback backup-wordlist generator).
Strings are modelled as `List Char`; Python string primitives
(`str.replace`, `in`, `lstrip`, `startswith`, `os.path.dirname`,
`os.path.basename`, `str(pathlib.Path(...))`, `int(...)`) are embedded as
executable functions below, and each function of the source file is
translated one-to-one.
-/

namespace Fback

/-- One left-to-right scan of Python `str.replace`, with a fuel argument
bounding the number of examined positions.  `pyReplace` supplies fuel equal
to the length of the scanned string, which suffices whenever the pattern is
non-empty; every call site in the source uses a fixed non-empty pattern
(for an empty pattern Python would interleave the replacement everywhere,
a case no call site exercises). -/
def replGo (pat rep : List Char) : Nat → List Char → List Char
  | 0, s => s
  | _ + 1, [] => []
  | fuel + 1, c :: cs =>
    if pat.isPrefixOf (c :: cs) then
      rep ++ replGo pat rep fuel ((c :: cs).drop pat.length)
    else
      c :: replGo pat rep fuel cs

/-- Python `s.replace(pat, rep)`: replace all non-overlapping occurrences,
scanning left to right. -/
def pyReplace (s pat rep : List Char) : List Char :=
  replGo pat rep s.length s

/-- Python list append guarded by `if s not in out` (the dedup step used by
`staticReplace` and `dynamicReplace`). -/
def dedupAppend (out : List (List Char)) (s : List Char) : List (List Char) :=
  if s ∈ out then out else out ++ [s]

/-- Python whitespace (the characters `str.strip()` and `int()` ignore,
restricted to ASCII). -/
def isPySpace (c : Char) : Bool :=
  c == ' ' || c == '\t' || c == '\n' || c == '\r' || c == '\x0b' || c == '\x0c'

/-- Strip leading and trailing whitespace, as `int()` does before parsing. -/
def stripWs (s : List Char) : List Char :=
  ((s.dropWhile isPySpace).reverse.dropWhile isPySpace).reverse

/-- Tail of a valid Python integer literal: digits, with single underscores
allowed only between digits. -/
def validTail : List Char → Bool
  | [] => true
  | '_' :: c :: rest => c.isDigit && validTail rest
  | c :: rest => c.isDigit && validTail rest

/-- A valid unsigned Python integer literal body (non-empty). -/
def validDigits : List Char → Bool
  | [] => false
  | c :: rest => c.isDigit && validTail rest

/-- Numeric value of a digit string, ignoring underscores. -/
def digitsVal (s : List Char) : Nat :=
  (s.filter (fun c => c ≠ '_')).foldl (fun n c => 10 * n + (c.toNat - 48)) 0

/-- Python `int(s)`: optional surrounding whitespace, optional sign, then a
digit string; `none` models the `ValueError` that `int` raises otherwise. -/
def pyInt (s : List Char) : Option Int :=
  match stripWs s with
  | '+' :: rest => if validDigits rest then some (Int.ofNat (digitsVal rest)) else none
  | '-' :: rest => if validDigits rest then some (-(Int.ofNat (digitsVal rest))) else none
  | rest => if validDigits rest then some (Int.ofNat (digitsVal rest)) else none

/-- Python substring test `pat in s`: does `pat` occur contiguously in
`s`? -/
def containsSub (pat : List Char) : List Char → Bool
  | [] => pat.isEmpty
  | c :: cs => pat.isPrefixOf (c :: cs) || containsSub pat cs

/-- Python `s.split(sep, 1)` for a one-character separator that is known to
occur in `s`: the part before the first occurrence and the part after it. -/
def splitFirst (c : Char) (s : List Char) : List Char × List Char :=
  (s.takeWhile (fun x => x ≠ c), (s.dropWhile (fun x => x ≠ c)).tail)

/-- The integers `a, a+1, ..., b` (empty when `a > b`); Python
`range(a, b + 1)`. -/
def rangeList (a b : Int) : List Int :=
  (List.range (b + 1 - a).toNat).map (fun (k : Nat) => a + (k : Int))

/-- Decimal rendering of an integer, Python `str(x)`. -/
def intStr (i : Int) : List Char :=
  (toString i).data

/-- Error raised when a range bound does not parse as an integer
(the uncaught `ValueError` from `int`, named `InvalidRangeError` in the
specification's taxonomy). -/
inductive RangeError
  | invalidRange

/-- Source `generateVariablesList` (fback.py lines 63-72).  The argument is
`None` or a string (argparse); Python's falsy test `if arg_str:` covers both
`None` and the empty string, and the function returns `None` in that case. -/
def generateVariablesList (arg : Option (List Char)) :
    Except RangeError (Option (List (List Char))) :=
  match arg with
  | none => .ok none
  | some s =>
    if s = [] then .ok none
    else if '-' ∈ s then
      match pyInt (splitFirst '-' s).1, pyInt (splitFirst '-' s).2 with
      | some a, some b => .ok (some ((rangeList a b).map intStr))
      | _, _ => .error .invalidRange
    else .ok (some [s])

/-- Python `os.path.basename` (posix): the part after the last `/`. -/
def osBasename (p : List Char) : List Char :=
  (p.reverse.takeWhile (fun c => c ≠ '/')).reverse

/-- Python `os.path.dirname` (posix): everything up to and including the
last `/`, then trailing slashes stripped unless the head is all slashes. -/
def osDirname (p : List Char) : List Char :=
  let head := (p.reverse.dropWhile (fun c => c ≠ '/')).reverse
  if head ≠ [] ∧ head.any (fun c => c ≠ '/') then
    (head.reverse.dropWhile (fun c => c = '/')).reverse
  else head

/-- Split a character list at every occurrence of `c` (Python
`s.split(c)`); always returns at least one (possibly empty) component. -/
def splitOnChar (c : Char) : List Char → List (List Char)
  | [] => [[]]
  | x :: xs =>
    match splitOnChar c xs with
    | [] => [[]]
    | h :: t => if x = c then [] :: h :: t else (x :: h) :: t

/-- Join components with a one-character separator (Python `c.join`). -/
def joinSep (c : Char) : List (List Char) → List Char
  | [] => []
  | [x] => x
  | x :: y :: t => x ++ c :: joinSep c (y :: t)

/-- Root of a posix `pathlib` path: `//` for exactly two leading slashes,
`/` for one or three-plus, empty otherwise. -/
def pathRoot (p : List Char) : List Char :=
  if ("//".data).isPrefixOf p && !("///".data).isPrefixOf p then "//".data
  else if ("/".data).isPrefixOf p then "/".data
  else []

/-- Component filter of `pathlib`: empty and `.` components are dropped. -/
def keepComp (x : List Char) : Bool :=
  !x.isEmpty && x != ".".data

/-- Components of a posix `pathlib` path. -/
def pathComponents (p : List Char) : List (List Char) :=
  (splitOnChar '/' p).filter keepComp

/-- Python `str(pathlib.Path(p))` on posix: root plus `/`-joined filtered
components, or `.` when both are empty. -/
def pyPathStr (p : List Char) : List Char :=
  let s := pathRoot p ++ joinSep '/' (pathComponents p)
  if s = [] then ".".data else s

/-- The per-URL variable record produced by `extract_url_parts`
(fback.py lines 52-61). -/
structure UrlVars where
  domain_name : List Char
  scheme : List Char
  subdomain : List Char
  tld : List Char
  full_domain : List Char
  path : List Char
  full_path : List Char
  file_name : List Char

/-- Source `extract_url_parts` (fback.py lines 29-61), parameterised by the
outputs of the external collaborators `tldextract.extract` (domain,
subdomain, suffix) and `urllib.parse.urlparse` (scheme, path). -/
def extract_url_parts (domain subdomain suffix scheme parsedPath : List Char) : UrlVars :=
  let full_domain :=
    if subdomain ≠ [] then subdomain ++ ".".data ++ domain ++ ".".data ++ suffix
    else domain ++ ".".data ++ suffix
  let fn := osBasename parsedPath
  { domain_name := domain
    scheme := scheme
    subdomain := subdomain
    tld := suffix
    full_domain := full_domain
    path := osDirname parsedPath
    full_path := pyPathStr parsedPath
    file_name := if '.' ∈ fn then fn else [] }

/-- Single-pattern body of `staticReplace` (fback.py lines 113-118): the
six `replace` calls, in source order.  The source has no `replace` call for
`$tld`. -/
def staticSub (v : UrlVars) (p : List Char) : List Char :=
  let s := pyReplace p ("$domain_name".data) v.domain_name
  let s := pyReplace s ("$full_domain".data) v.full_domain
  let s := pyReplace s ("$subdomain".data) v.subdomain
  let s := pyReplace s ("$path".data) v.path
  let s := pyReplace s ("$full_path".data) v.full_path
  let s := pyReplace s ("$file_name".data) v.file_name
  s

/-- Source `staticReplace` (fback.py lines 107-121). -/
def staticReplace (patterns : List (List Char)) (v : UrlVars) : List (List Char) :=
  patterns.foldl (fun out p => dedupAppend out (staticSub v p)) []

/-- Source `dynamicReplace` (fback.py lines 123-133). -/
def dynamicReplace (patterns : List (List Char)) (repList : List (List Char))
    (placeholder : List Char) : List (List Char) :=
  patterns.foldl
    (fun out p => repList.foldl (fun out x => dedupAppend out (pyReplace p placeholder x)) out)
    []

/-- Source `checkPatternsExtension` (fback.py lines 135-142): whether any
candidate still contains `$b_ext` (first component) or `$c_ext` (second). -/
def checkPatternsExtension (patterns : List (List Char)) : Bool × Bool :=
  (patterns.any (fun p => containsSub ("$b_ext".data) p),
   patterns.any (fun p => containsSub ("$c_ext".data) p))

/-- Single-word body of `cleanResult` (fback.py lines 150-158). -/
def cleanResultOne (word scheme domain : List Char) (relative : Bool) : List Char :=
  let w := pyReplace word ("//".data) ("/".data)
  if relative then
    w.dropWhile (fun c => c = '/')
  else
    let w2 := if ("/".data).isPrefixOf w then w else "/".data ++ w
    scheme ++ "://".data ++ domain ++ w2

/-- Source `cleanResult` (fback.py lines 144-159). -/
def cleanResult (result : List (List Char)) (scheme domain : List Char)
    (relative : Bool) : List (List Char) :=
  result.map (fun word => cleanResultOne word scheme domain relative)

/-- The `$num` value list: `str(x) for x in range(1, n + 1)`. -/
def numList (n : Int) : List (List Char) :=
  (rangeList 1 n).map intStr

/-- The conditional `$b_ext` stage of `createWordlist` (fback.py lines
176-178): run the combinatorial pass only when some candidate still
contains `$b_ext`. -/
def bextPass (pats bExtL : List (List Char)) : List (List Char) :=
  if (checkPatternsExtension pats).1 then dynamicReplace pats bExtL ("$b_ext".data)
  else pats

/-- Source `createWordlist` (fback.py lines 161-182).  The `%y`, `%m`, `%d`
stages run only when the corresponding value is truthy in Python (not
`None` and not the empty list); the `$c_ext` flag is computed from the
candidate set before the `$b_ext` pass, exactly as in the source. -/
def createWordlist (patterns wordlist extL bExtL cExtL : List (List Char)) (n : Int)
    (vars : UrlVars) (years months days : Option (List (List Char)))
    (relative : Bool) : List (List Char) :=
  let pats := staticReplace patterns vars
  let pats := dynamicReplace pats wordlist ("$word".data)
  let pats := dynamicReplace pats extL ("$ext".data)
  let pats := dynamicReplace pats (numList n) ("$num".data)
  let pats :=
    match years with
    | some (y :: ys) => dynamicReplace pats (y :: ys) ("%y".data)
    | _ => pats
  let pats :=
    match months with
    | some (m :: ms) => dynamicReplace pats (m :: ms) ("%m".data)
    | _ => pats
  let pats :=
    match days with
    | some (d :: ds) => dynamicReplace pats (d :: ds) ("%d".data)
    | _ => pats
  let cFlag := (checkPatternsExtension pats).2
  let pats := bextPass pats bExtL
  let pats := if cFlag then dynamicReplace pats cExtL ("$c_ext".data) else pats
  cleanResult pats vars.scheme vars.full_domain relative

/-- The output filter applied both by `saveResults` and by the stdout loop
of `main` (fback.py lines 191 and 228): keep an entry only if it contains
neither `%` nor `$`. -/
def keepEntry (item : List Char) : Bool :=
  !(containsSub ("%".data) item) && !(containsSub ("$".data) item)

/-- The lines printed to stdout by `main` (fback.py lines 227-229). -/
def stdoutResults (results : List (List Char)) : List (List Char) :=
  results.filter keepEntry

/-- Source `saveResults` (fback.py lines 184-192): the file content written
when `-o` was provided, `none` otherwise. -/
def saveResults (o : Option (List Char)) (results : List (List Char)) :
    Option (List (List Char)) :=
  match o with
  | none => none
  | some _ => some (results.filter keepEntry)

/-- The default wordlist of `main` (fback.py lines 197-200). -/
def defaultWordlist : List (List Char) :=
  (["web", "fullbackup", "backup", "data", "site", "assets",
    "logs", "debug", "install"]).map String.data

/-- The built-in backup-extension list `b_ext` of `main`
(fback.py lines 201-206). -/
def b_ext : List (List Char) :=
  (["bpa", "bak", "swp", "~", "tmp", "bckp", "new", "spg", "acp",
    "bkup", "backup", "bak3", "bkz", "abu", "bdb", "blend",
    "backupdb", "sav", "save", "orig", "tig", "sh", "bck",
    "bk", "bash", "copy", "backup1", "bakx", "npf", "log",
    "old", "bundle", "adi", "mbk", "ba", "bak2", "bps",
    "pack", "abk", "back"]).map String.data

/-- The built-in compression-extension list `c_ext` of `main`
(fback.py lines 207-209). -/
def c_ext : List (List Char) :=
  (["zip", "rar", "7z", "tar", "gzip", "bzip", "bz",
    "tar.xz", "pkg.tar.xz", "tg", "tar.gz", "tar.bzip",
    "tsv.gz", "gz", "dz", "tbz", "pkg"]).map String.data

/-- The `$ext` value list of `main` (fback.py line 210): backup extensions
followed by compression extensions. -/
def ext : List (List Char) :=
  b_ext ++ c_ext

/-- The command-line arguments accepted by `setup_argparse`
(fback.py lines 11-27). -/
structure Args where
  l : Option (List Char)
  p : Option (List Char)
  o : Option (List Char)
  w : Option (List Char)
  n : Int
  e : Option (List Char)
  yr : Option (List Char)
  mr : Option (List Char)
  dr : Option (List Char)
  relative : Bool

/-- Python `set(all_results)` modelled as first-occurrence deduplication
(final output order is unspecified set order in the source). -/
def dedupList (l : List (List Char)) : List (List Char) :=
  l.foldl dedupAppend []

/-- Source `main` (fback.py lines 194-229), parameterised by the file
system and URL decomposition collaborators: `readList` models
`readFile(_, "list")`, `loadPatternsOracle` models `loadPatterns`,
`decompose` models `extract_url_parts` applied to a raw URL, and
`stdinUrls` the stdin fallback of `loadUrls`.  The result is the list of
lines printed to stdout (the file written by `saveResults` holds the same
filtered entries). -/
def runMain (args : Args) (readList : List Char → List (List Char))
    (loadPatternsOracle : Option (List Char) → List (List Char))
    (decompose : List Char → UrlVars) (stdinUrls : List (List Char)) :
    Except RangeError (List (List Char)) :=
  let patterns := loadPatternsOracle args.p
  let wordlist :=
    match args.w with
    | some wf => readList wf
    | none => defaultWordlist
  match generateVariablesList args.yr, generateVariablesList args.mr,
        generateVariablesList args.dr with
  | .ok years, .ok months, .ok days =>
    let urls :=
      match args.l with
      | some lf => readList lf
      | none => stdinUrls
    let allResults :=
      (urls.map (fun u =>
        createWordlist patterns wordlist ext b_ext c_ext args.n (decompose u)
          years months days args.relative)).flatten
    .ok (stdoutResults (dedupList allResults))
  | .error err, _, _ => .error err
  | .ok _, .error err, _ => .error err
  | .ok _, .ok _, .error err => .error err

/-! Helper lemmas about the embedded Python string primitives. -/

/-- A one-character pattern occurs in a string iff the character is a
member. -/
theorem singleton_infix_iff {a : Char} {l : List Char} : [a] <:+: l ↔ a ∈ l := by
  constructor
  · intro h
    exact h.subset (List.mem_singleton.mpr rfl)
  · intro h
    obtain ⟨s, t, rfl⟩ := List.append_of_mem h
    exact ⟨s, t, by simp⟩

/-- The Boolean substring test agrees with list-infix. -/
theorem containsSub_iff {pat s : List Char} : containsSub pat s = true ↔ pat <:+: s := by
  induction s with
  | nil => simp [containsSub, List.isEmpty_iff, List.infix_nil]
  | cons c cs ih =>
    simp only [containsSub, Bool.or_eq_true, ih, List.isPrefixOf_iff_prefix,
      List.infix_cons_iff]

/-- A `replGo` scan leaves the string unchanged when the pattern does not
occur in it (any sufficient fuel). -/
theorem replGo_no_occurrence {pat rep : List Char} :
    ∀ (f : Nat) (s : List Char), s.length ≤ f → ¬ pat <:+: s → replGo pat rep f s = s := by
  intro f
  induction f with
  | zero =>
    intro s _ _
    rfl
  | succ f ih =>
    intro s hlen hinf
    cases s with
    | nil => rfl
    | cons c cs =>
      have hpre : ¬ pat.isPrefixOf (c :: cs) = true := by
        rw [ List.isPrefixOf_iff_prefix]
        exact fun hp => hinf ( List.IsPrefix.isInfix hp)
      simp only [replGo, if_neg hpre]
      have hlen' : cs.length ≤ f := by
        simpa using Nat.le_of_succ_le_succ (by simpa using hlen)
      rw [ih cs hlen' (fun hi => hinf ( List.infix_cons hi))]

/-- Python `replace` is the identity when the pattern does not occur. -/
theorem pyReplace_no_occurrence {pat rep s : List Char} (h : ¬ pat <:+: s) :
    pyReplace s pat rep = s :=
  replGo_no_occurrence s.length s le_rfl h

/-- The deduplicating append always contains the appended element. -/
theorem mem_dedupAppend_self (out : List (List Char)) (s : List Char) :
    s ∈ dedupAppend out s := by
  by_cases hs : s ∈ out
  · simp [dedupAppend, hs]
  · simp [dedupAppend, hs]

/-- The deduplicating append preserves membership. -/
theorem mem_dedupAppend_of_mem {a : List Char} (out : List (List Char)) (s : List Char)
    (h : a ∈ out) : a ∈ dedupAppend out s := by
  by_cases hs : s ∈ out
  · simpa [dedupAppend, hs] using h
  · simp [dedupAppend, hs, h]

/-- The deduplicating append preserves `Nodup`. -/
theorem nodup_dedupAppend (out : List (List Char)) (s : List Char) (h : out.Nodup) :
    (dedupAppend out s).Nodup := by
  by_cases hs : s ∈ out
  · simpa [dedupAppend, hs] using h
  · simp only [dedupAppend, if_neg hs]
    rw [List.nodup_append]
    refine ⟨h, List.nodup_singleton s, ?_⟩
    intro a ha hb
    rw [List.mem_singleton] at hb
    subst hb
    exact hs ha

/-- Membership in the accumulator survives a deduplicating fold. -/
theorem mem_foldl_dedupAppend_of_mem {β : Type} (g : β → List Char) :
    ∀ (l : List β) (out : List (List Char)) (a : List Char), a ∈ out →
      a ∈ l.foldl (fun o x => dedupAppend o (g x)) out := by
  intro l
  induction l with
  | nil =>
    intro out a h
    simpa using h
  | cons x xs ih =>
    intro out a h
    rw [List.foldl_cons]
    exact ih _ a (mem_dedupAppend_of_mem _ _ h)

/-- Every processed element lands in the result of a deduplicating fold. -/
theorem mem_foldl_dedupAppend_apply {β : Type} (g : β → List Char) :
    ∀ (l : List β) (out : List (List Char)) (x : β), x ∈ l →
      g x ∈ l.foldl (fun o x => dedupAppend o (g x)) out := by
  intro l
  induction l with
  | nil => simp
  | cons y ys ih =>
    intro out x hx
    rw [List.foldl_cons]
    rcases List.mem_cons.mp hx with h | h
    · subst h
      exact mem_foldl_dedupAppend_of_mem g ys _ _ (mem_dedupAppend_self _ _)
    · exact ih _ x h

/-- A deduplicating fold preserves `Nodup`. -/
theorem nodup_foldl_dedupAppend {β : Type} (g : β → List Char) :
    ∀ (l : List β) (out : List (List Char)), out.Nodup →
      (l.foldl (fun o x => dedupAppend o (g x)) out).Nodup := by
  intro l
  induction l with
  | nil =>
    intro out h
    simpa using h
  | cons x xs ih =>
    intro out h
    rw [List.foldl_cons]
    exact ih _ (nodup_dedupAppend _ _ h)

/-- Membership in the accumulator survives the outer fold of
`dynamicReplace`. -/
theorem mem_foldl_dynamic_of_mem (repList : List (List Char)) (ph : List Char) :
    ∀ (l : List (List Char)) (out : List (List Char)) (a : List Char), a ∈ out →
      a ∈ l.foldl
        (fun o q => repList.foldl (fun o2 y => dedupAppend o2 (pyReplace q ph y)) o) out := by
  intro l
  induction l with
  | nil =>
    intro out a h
    simpa using h
  | cons q qs ih =>
    intro out a h
    rw [List.foldl_cons]
    exact ih _ a (mem_foldl_dedupAppend_of_mem (fun y => pyReplace q ph y) repList out a h)

/-- Every pattern/value pair contributes its substitution to the outer
fold of `dynamicReplace`, whatever the accumulator. -/
theorem mem_foldl_dynamic_apply (repList : List (List Char)) (ph : List Char) :
    ∀ (l : List (List Char)) (out : List (List Char)) (p x : List Char),
      p ∈ l → x ∈ repList →
      pyReplace p ph x ∈ l.foldl
        (fun o q => repList.foldl (fun o2 y => dedupAppend o2 (pyReplace q ph y)) o) out := by
  intro l
  induction l with
  | nil =>
    intro out p x hp _
    cases hp
  | cons q qs ih =>
    intro out p x hp hx
    rw [List.foldl_cons]
    rcases List.mem_cons.mp hp with h | h
    · subst h
      exact mem_foldl_dynamic_of_mem repList ph qs _ _
        (mem_foldl_dedupAppend_apply (fun y => pyReplace p ph y) repList out x hx)
    · exact ih _ p x h hx

/-- Every pattern/value pair contributes its substitution to
`dynamicReplace`. -/
theorem mem_dynamicReplace {patterns repList : List (List Char)} {ph p x : List Char}
    (hp : p ∈ patterns) (hx : x ∈ repList) :
    pyReplace p ph x ∈ dynamicReplace patterns repList ph :=
  mem_foldl_dynamic_apply repList ph patterns [] p x hp hx

/-- The output of `dynamicReplace` contains no duplicate string. -/
theorem nodup_dynamicReplace (patterns repList : List (List Char)) (ph : List Char) :
    (dynamicReplace patterns repList ph).Nodup := by
  unfold dynamicReplace
  have aux : ∀ (l : List (List Char)) (out : List (List Char)), out.Nodup →
      (l.foldl
        (fun o q => repList.foldl (fun o2 y => dedupAppend o2 (pyReplace q ph y)) o)
        out).Nodup := by
    intro l
    induction l with
    | nil =>
      intro out h
      simpa using h
    | cons q qs ih =>
      intro out h
      rw [List.foldl_cons]
      exact ih _ (nodup_foldl_dedupAppend (fun y => pyReplace q ph y) repList out h)
  exact aux patterns [] List.nodup_nil

/-- Dropping a prefix by predicate is idempotent. -/
theorem dropWhile_dropWhile {p : Char → Bool} :
    ∀ l : List Char, (l.dropWhile p).dropWhile p = l.dropWhile p := by
  intro l
  induction l with
  | nil => rfl
  | cons c cs ih =>
    by_cases hc : p c
    · simp [List.dropWhile_cons, hc, ih]
    · simp [List.dropWhile_cons, hc]

/-- Splitting never returns the empty component list. -/
theorem splitOnChar_ne_nil (c : Char) : ∀ s : List Char, splitOnChar c s ≠ [] := by
  intro s
  cases s with
  | nil => simp [splitOnChar]
  | cons x xs =>
    simp only [splitOnChar]
    rcases h : splitOnChar c xs with _ | ⟨h1, t⟩
    · simp
    · by_cases hx : x = c <;> simp [hx]

/-- Splitting a string that starts with the separator yields a leading
empty component followed by the split of the remainder. -/
theorem splitOnChar_cons_sep (c : Char) (q : List Char) :
    splitOnChar c (c :: q) = [] :: splitOnChar c q := by
  simp only [splitOnChar]
  rcases h : splitOnChar c q with _ | ⟨h1, t⟩
  · exact absurd h (splitOnChar_ne_nil c q)
  · simp

/-- Joining the components of a split restores the original string. -/
theorem joinSep_splitOnChar (c : Char) : ∀ s : List Char, joinSep c (splitOnChar c s) = s := by
  intro s
  induction s with
  | nil => rfl
  | cons x xs ih =>
    rcases h : splitOnChar c xs with _ | ⟨h1, t⟩
    · exact absurd h (splitOnChar_ne_nil c xs)
    · rw [h] at ih
      by_cases hx : x = c
      · subst hx
        rw [splitOnChar_cons_sep, h]
        rw [show joinSep x ([] :: h1 :: t) = [] ++ x :: joinSep x (h1 :: t) from rfl]
        rw [ih]
        rfl
      · simp only [splitOnChar, h, if_neg hx]
        cases t with
        | nil =>
          simp only [joinSep] at ih ⊢
          rw [ih]
        | cons t0 t1 =>
          rw [show joinSep c ((x :: h1) :: t0 :: t1) =
            (x :: h1) ++ c :: joinSep c (t0 :: t1) from rfl]
          rw [show joinSep c (h1 :: t0 :: t1) = h1 ++ c :: joinSep c (t0 :: t1) from rfl] at ih
          rw [← ih]
          rfl

/-- In a duplicate-free list every member has count one. -/
theorem count_eq_one_of_nodup_mem :
    ∀ {l : List (List Char)} {a : List Char}, l.Nodup → a ∈ l → l.count a = 1 := by
  intro l
  induction l with
  | nil =>
    intro a _ hm
    cases hm
  | cons b bs ih =>
    intro a hn hm
    rcases List.mem_cons.mp hm with h | h
    · subst h
      have h1 : a ∉ bs := (List.nodup_cons.mp hn).1
      simp [List.count_cons, List.count_eq_zero.mpr h1]
    · have h2 := List.nodup_cons.mp hn
      have hne : a ≠ b := fun e => h2.1 (e ▸ h)
      simp [List.count_cons, ih h2.2 h, hne]

/-- Membership in an inclusive integer range. -/
theorem mem_rangeList {i j k : Int} : k ∈ rangeList i j ↔ i ≤ k ∧ k ≤ j := by
  simp only [rangeList, List.mem_map, List.mem_range]
  constructor
  · rintro ⟨m, hm, rfl⟩
    omega
  · intro h
    exact ⟨(k - i).toNat, by omega, by omega⟩

/-- An inclusive integer range is strictly ascending. -/
theorem sorted_rangeList (i j : Int) :
    List.Sorted (fun a b : Int => a < b) (rangeList i j) := by
  rw [rangeList]
  exact (@List.pairwise_map Nat Int (fun (k : Nat) => i + (k : Int)) (fun a b => a < b)
    (List.range (j + 1 - i).toNat)).mpr
    ((List.pairwise_lt_range _).imp (fun h => add_lt_add_left (Int.ofNat_lt.mpr h) i))

/-- Dropping while a character differs stops at its first occurrence. -/
theorem dropWhile_ne_of_mem {c : Char} :
    ∀ {s : List Char}, c ∈ s → ∃ t, s.dropWhile (fun x => x ≠ c) = c :: t := by
  intro s
  induction s with
  | nil =>
    intro h
    cases h
  | cons x xs ih =>
    intro h
    by_cases hx : x = c
    · subst hx
      refine ⟨xs, ?_⟩
      rw [List.dropWhile_cons, if_neg (by simp)]
    · have hc : c ∈ xs := by
        rcases List.mem_cons.mp h with h1 | h1
        · exact absurd h1.symm hx
        · exact h1
      obtain ⟨t, ht⟩ := ih hc
      refine ⟨t, ?_⟩
      rw [List.dropWhile_cons, if_pos (by simp [hx])]
      exact ht

/-- Python `s.split(c, 1)` splits at the FIRST occurrence: the two parts
rebuild the string around one separator, and the left part is
separator-free. -/
theorem splitFirst_spec {s : List Char} (h : '-' ∈ s) :
    (splitFirst '-' s).1 ++ '-' :: (splitFirst '-' s).2 = s ∧
    '-' ∉ (splitFirst '-' s).1 := by
  obtain ⟨t, ht⟩ := dropWhile_ne_of_mem h
  constructor
  · show s.takeWhile (fun x => x ≠ '-') ++ '-' :: (s.dropWhile (fun x => x ≠ '-')).tail = s
    rw [ht]
    show s.takeWhile (fun x => x ≠ '-') ++ '-' :: t = s
    rw [← ht]
    exact List.takeWhile_append_dropWhile _ s
  · intro hmem
    have hp := List.mem_takeWhile_imp hmem
    simp at hp

/-! Claim theorems. -/

/-- C1: the static pass does not substitute all seven static placeholders.
`staticReplace` (fback.py lines 107-121) has `replace` calls for six
placeholders only; `$tld` is never replaced, although `extract_url_parts`
documents and computes it.  Evaluating the code at the failing input: the
template `$tld`, with URL variables carrying `tld = com`, comes out of the
static pass unchanged, still containing `$tld`. -/
theorem staticReplace_misses_tld :
    staticReplace [("$tld".data)]
      { domain_name := "example".data
        scheme := "https".data
        subdomain := []
        tld := "com".data
        full_domain := "example.com".data
        path := []
        full_path := ".".data
        file_name := [] } = [("$tld".data)] ∧
    ("$tld".data) <:+: ("$tld".data) :=
  ⟨rfl, List.infix_rfl⟩

/-- C3 counterexample: with an empty replacement value list, a candidate
that does not contain the placeholder does not appear once in the pass
output — the output of `dynamicReplace` is empty, because the inner loop
body never runs.  (This is reachable in `main`: an empty `-w` wordlist file
makes the `$word` pass empty the entire candidate set.) -/
theorem dynamicReplace_empty_replist_cex :
    dynamicReplace [("ab".data)] [] ("$word".data) = [] ∧
    ("ab".data) ∉ dynamicReplace [("ab".data)] [] ("$word".data) :=
  ⟨rfl, by decide⟩

/-- C3 (amended): for a NON-EMPTY replacement value list, the pass output
of `dynamicReplace` has no duplicate, every candidate not containing the
placeholder appears exactly once (unchanged) in it, and every candidate
containing the placeholder contributes, for each replacement value, the
corresponding substitution to the output (outputs deduplicated by exact
string equality across the whole pass). -/
theorem dynamicReplace_spec (patterns repList : List (List Char)) (ph : List Char)
    (hne : repList ≠ []) :
    (dynamicReplace patterns repList ph).Nodup ∧
    (∀ p ∈ patterns, ¬ ph <:+: p →
      (dynamicReplace patterns repList ph).count p = 1) ∧
    (∀ p ∈ patterns, ∀ x ∈ repList,
      pyReplace p ph x ∈ dynamicReplace patterns repList ph) := by
  refine ⟨nodup_dynamicReplace patterns repList ph, ?_, ?_⟩
  · intro p hp hinf
    rcases repList with _ | ⟨x, xs⟩
    · exact absurd rfl hne
    · have hmem : p ∈ dynamicReplace patterns (x :: xs) ph := by
        have h := @mem_dynamicReplace patterns (x :: xs) ph p x hp
          (List.mem_cons_self x xs)
        rwa [pyReplace_no_occurrence hinf] at h
      exact count_eq_one_of_nodup_mem (nodup_dynamicReplace patterns (x :: xs) ph) hmem
  · intro p hp x hx
    exact mem_dynamicReplace hp hx

/-- C3 witness: in the pass `dynamicReplace [a$word, b] [x] $word`, the
candidate `b` (no placeholder) appears exactly once and `a$word` spawns
`ax`. -/
theorem dynamicReplace_spec_witness :
    (dynamicReplace [("a$word".data), ("b".data)] [("x".data)] ("$word".data)).count
      ("b".data) = 1 ∧
    ("ax".data) ∈ dynamicReplace [("a$word".data), ("b".data)] [("x".data)] ("$word".data) := by
  have h := dynamicReplace_spec [("a$word".data), ("b".data)] [("x".data)] ("$word".data)
    (by decide)
  refine ⟨h.2.1 ("b".data) (by decide) (by decide), ?_⟩
  have h2 := h.2.2 ("a$word".data) (by decide) ("x".data) (by decide)
  have hrepl : pyReplace ("a$word".data) ("$word".data) ("x".data) = ("ax".data) := by decide
  rwa [hrepl] at h2

/-- C2 counterexample: `$b_ext` present in a template while the
backup-extension list is empty does NOT skip the `$b_ext` pass.  The
`any()` check (on candidates, not on the list) succeeds, the pass runs
with an empty value list, and `createWordlist` returns the empty list:
even the candidate `plain`, which contains no `$b_ext`, is dropped —
contrary to the claim that such candidates are unaffected. -/
theorem createWordlist_empty_bext_drops_all :
    createWordlist [("x$b_ext".data), ("plain".data)] [("w".data)] [("e".data)] []
      [("z".data)] 1
      { domain_name := "d".data
        scheme := "https".data
        subdomain := []
        tld := "com".data
        full_domain := "d.com".data
        path := []
        full_path := ".".data
        file_name := [] }
      none none none true = [] := by
  rfl

/-- C2 (amended): the `$b_ext` stage of `createWordlist` runs exactly when
some candidate still contains `$b_ext`, regardless of whether the
backup-extension list is empty.  When no candidate contains `$b_ext` the
stage is the identity; when the list is non-empty, every candidate without
`$b_ext` survives the stage.  (With an empty list and a `$b_ext`-bearing
candidate, the stage instead empties the whole candidate set — see the
counterexample; in `main` the backup list is a non-empty constant, so that
case is unreachable in a real run.) -/
theorem bextPass_spec (pats bl : List (List Char)) :
    ((∀ p ∈ pats, ¬ ("$b_ext".data) <:+: p) → bextPass pats bl = pats) ∧
    (bl ≠ [] → ∀ p ∈ pats, ¬ ("$b_ext".data) <:+: p → p ∈ bextPass pats bl) := by
  constructor
  · intro h
    have hflag : (checkPatternsExtension pats).1 = false := by
      simp only [checkPatternsExtension]
      rw [List.any_eq_false]
      intro p hp
      rw [containsSub_iff]
      exact h p hp
    simp [bextPass, hflag]
  · intro hbl p hp hinf
    by_cases hflag : (checkPatternsExtension pats).1 = true
    · simp only [bextPass, if_pos hflag]
      rcases bl with _ | ⟨x, xs⟩
      · exact absurd rfl hbl
      · have h := @mem_dynamicReplace pats (x :: xs) ("$b_ext".data) p x hp
          (List.mem_cons_self x xs)
        rwa [pyReplace_no_occurrence hinf] at h
    · simp only [bextPass, if_neg hflag]
      exact hp

/-- C2 witness: for the candidate set `[a]` (no `$b_ext`) and the
non-empty backup list `[v]`, the conditional stage is skipped and the
candidate survives. -/
theorem bextPass_spec_witness :
    bextPass [("a".data)] [("v".data)] = [("a".data)] ∧
    ("a".data) ∈ bextPass [("a".data)] [("v".data)] := by
  have h := bextPass_spec [("a".data)] [("v".data)]
  refine ⟨h.1 ?_, h.2 (by decide) ("a".data) (by decide) (by decide)⟩
  intro p hp
  rw [List.mem_singleton] at hp
  subst hp
  decide

/-- C4 counterexample: normalization is not idempotent for every candidate
and mode.  In non-relative mode, re-normalizing the already-produced entry
`http://d/x` collapses the `//` of the scheme separator and prepends the
`scheme://domain` prefix again, yielding a different string. -/
theorem cleanResult_not_idempotent_absolute :
    cleanResult (cleanResult [("x".data)] ("http".data) ("d".data) false)
      ("http".data) ("d".data) false ≠
    cleanResult [("x".data)] ("http".data) ("d".data) false := by
  decide

/-- C4 (amended): normalization is idempotent only in relative mode and
only on candidates whose normalized form no longer contains `//`: for
those, applying the normalizer to its own output yields that output
unchanged.  (The counterexample shows non-relative mode is never
idempotent on its own output, and a single `//`→`/` replace pass can leave
`//` behind, e.g. `////` becomes `//`.) -/
theorem cleanResult_relative_idem (w scheme domain : List Char)
    (h : ¬ ("//".data) <:+: cleanResultOne w scheme domain true) :
    cleanResult (cleanResult [w] scheme domain true) scheme domain true =
    cleanResult [w] scheme domain true := by
  have hu : cleanResultOne w scheme domain true =
      (pyReplace w ("//".data) ("/".data)).dropWhile (fun c => c = '/') := rfl
  have hone : cleanResultOne (cleanResultOne w scheme domain true) scheme domain true =
      cleanResultOne w scheme domain true := by
    show (pyReplace (cleanResultOne w scheme domain true) ("//".data)
        ("/".data)).dropWhile (fun c => c = '/') = cleanResultOne w scheme domain true
    rw [pyReplace_no_occurrence h]
    rw [hu]
    exact dropWhile_dropWhile _
  simp [cleanResult, hone]

/-- C4 witness: the candidate `a//b` normalizes (relative mode) to `a/b`,
which contains no `//`, and re-normalizing gives `a/b` again. -/
theorem cleanResult_relative_idem_witness :
    cleanResult (cleanResult [("a//b".data)] ("http".data) ("d".data) true)
      ("http".data) ("d".data) true =
    cleanResult [("a//b".data)] ("http".data) ("d".data) true :=
  cleanResult_relative_idem ("a//b".data) ("http".data) ("d".data) (by decide)

/-- C7 counterexample: the emitted path does not always begin with exactly
one leading `/`.  For the candidate `///x`, the single `//`→`/` replace
pass leaves `//x`; that already starts with `/`, so no slash is added and
the emitted entry is `http` ++ `://` ++ `d` ++ `//x`: its path part begins
with two slashes. -/
theorem cleanResult_two_leading_slashes_cex :
    cleanResult [("///x".data)] ("http".data) ("d".data) false =
      [("http".data) ++ ("://".data) ++ ("d".data) ++ ("//x".data)] ∧
    ("//".data) <+: ("//x".data) := by
  constructor
  · rfl
  · decide

/-- C7 (amended): in non-relative mode every emitted entry is exactly
`scheme ++ "://" ++ domain ++ path` where the path remainder begins with
AT LEAST one `/` (exactly one unless the slash-collapsed candidate itself
still begins with `//`, as in the counterexample); the `//`→`/` collapse
is one left-to-right replace pass over the whole candidate, applied before
prefixing. -/
theorem cleanResult_absolute_shape (word scheme domain : List Char) :
    cleanResultOne word scheme domain false =
      scheme ++ ("://".data) ++ domain ++
        ((cleanResultOne word scheme domain false).drop
          (scheme.length + 3 + domain.length)) ∧
    ((cleanResultOne word scheme domain false).drop
      (scheme.length + 3 + domain.length)).head? = some '/' := by
  have hdrop : ∀ w2 : List Char,
      (scheme ++ ("://".data) ++ domain ++ w2).drop
        (scheme.length + 3 + domain.length) = w2 := by
    intro w2
    have hassoc : scheme ++ ("://".data) ++ domain ++ w2 =
        (scheme ++ ("://".data) ++ domain) ++ w2 := by
      simp [List.append_assoc]
    have hlen : (scheme ++ ("://".data) ++ domain).length =
        scheme.length + 3 + domain.length := by
      rw [List.length_append, List.length_append]
      rfl
    rw [hassoc, ← hlen, List.drop_left]
  have hdef : cleanResultOne word scheme domain false =
      scheme ++ ("://".data) ++ domain ++
        (if ("/".data).isPrefixOf (pyReplace word ("//".data) ("/".data)) then
          pyReplace word ("//".data) ("/".data)
        else ("/".data) ++ pyReplace word ("//".data) ("/".data)) := rfl
  constructor
  · rw [hdef, hdrop]
  · rw [hdef, hdrop]
    by_cases hpre : ("/".data).isPrefixOf (pyReplace word ("//".data) ("/".data)) = true
    · rw [if_pos hpre]
      obtain ⟨t, ht⟩ := ( List.isPrefixOf_iff_prefix).mp hpre
      rw [← ht]
      rfl
    · rw [if_neg hpre]
      rfl

/-- C5: range expansion.  An absent argument (Python `None`) and the empty
string both give `None` (the falsy no-value result, treated downstream
exactly like an empty value list); a non-empty argument without `-` gives
the one-element literal sequence; an argument containing `-` is split at
the FIRST `-` (the parts rebuild the string and the left part is
hyphen-free), and when both parts parse as integers the result is the
inclusive ascending sequence `start..end` rendered as strings, while a
parse failure of either part raises the range error. -/
theorem generateVariablesList_spec :
    generateVariablesList none = .ok none ∧
    generateVariablesList (some []) = .ok none ∧
    (∀ s : List Char, s ≠ [] → '-' ∉ s →
      generateVariablesList (some s) = .ok (some [s])) ∧
    (∀ s : List Char, '-' ∈ s →
      ((splitFirst '-' s).1 ++ '-' :: (splitFirst '-' s).2 = s ∧
        '-' ∉ (splitFirst '-' s).1) ∧
      (∀ i j : Int, pyInt (splitFirst '-' s).1 = some i →
        pyInt (splitFirst '-' s).2 = some j →
        generateVariablesList (some s) = .ok (some ((rangeList i j).map intStr)) ∧
        (∀ k : Int, k ∈ rangeList i j ↔ i ≤ k ∧ k ≤ j) ∧
        List.Sorted (fun a b : Int => a < b) (rangeList i j)) ∧
      ((pyInt (splitFirst '-' s).1 = none ∨ pyInt (splitFirst '-' s).2 = none) →
        generateVariablesList (some s) = .error .invalidRange)) := by
  refine ⟨rfl, rfl, ?_, ?_⟩
  · intro s hne hnm
    simp [generateVariablesList, hne, hnm]
  · intro s hm
    have hne : s ≠ [] := by
      rintro rfl
      cases hm
    refine ⟨splitFirst_spec hm, ?_, ?_⟩
    · intro i j hi hj
      refine ⟨?_, fun k => mem_rangeList, sorted_rangeList i j⟩
      simp [generateVariablesList, hne, hm, hi, hj]
    · intro hnone
      rcases hnone with hi | hi
      · simp [generateVariablesList, hne, hm, hi]
      · rcases h1 : pyInt (splitFirst '-' s).1 with _ | a
        · simp [generateVariablesList, hne, hm, h1]
        · simp [generateVariablesList, hne, hm, h1, hi]

/-- C5 witness: the range string `2000-2002` expands to the three year
strings in ascending order. -/
theorem generateVariablesList_spec_witness :
    generateVariablesList (some ("2000-2002".data)) =
      .ok (some [("2000".data), ("2001".data), ("2002".data)]) := by
  have h := (generateVariablesList_spec.2.2.2 ("2000-2002".data) (by decide)).2.1
    2000 2002 (by decide) (by decide)
  exact h.1.trans (by rfl)

/-- C8 counterexample: `full_path` is not the URL path exactly as given.
`extract_url_parts` renders the parsed path through `pathlib.Path`, which
collapses the duplicate slash and strips the trailing slash: the path
`/app//x/` yields `full_path = /app/x`. -/
theorem full_path_normalized_cex :
    (extract_url_parts ("example".data) ([]) ("com".data) ("https".data)
      ("/app//x/".data)).full_path = ("/app/x".data) ∧
    (extract_url_parts ("example".data) ([]) ("com".data) ("https".data)
      ("/app//x/".data)).full_path ≠ ("/app//x/".data) := by
  constructor
  · rfl
  · decide

/-- C8 (amended): `full_path` is the lexical `pathlib` normal form of the
parsed URL path, and equals the path exactly as given whenever the path is
already normal: for every path `/q` whose `/`-separated components are all
non-empty and distinct from `.` (no duplicate or trailing separators, no
`.` segments), `full_path` preserves the path verbatim. -/
theorem full_path_preserved_on_normal_paths
    (domain subdomain suffix scheme q : List Char)
    (h : ∀ comp ∈ splitOnChar '/' q, comp ≠ [] ∧ comp ≠ (".".data)) :
    (extract_url_parts domain subdomain suffix scheme ('/' :: q)).full_path =
      '/' :: q := by
  have hq0 : ∀ q' : List Char, q ≠ '/' :: q' := by
    intro q' hq
    have hmem : ([] : List Char) ∈ splitOnChar '/' q := by
      rw [hq, splitOnChar_cons_sep]
      exact List.mem_cons_self _ _
    exact (h [] hmem).1 rfl
  have hpre2 : ("//".data).isPrefixOf ('/' :: q) = false := by
    cases q with
    | nil => rfl
    | cons c q' =>
      have hc : ('/' : Char) ≠ c := fun e => hq0 q' (by rw [← e])
      simp [List.isPrefixOf, hc]
  have hslash : ("/".data).isPrefixOf ('/' :: q) = true := by
    simp [List.isPrefixOf]
  have hroot : pathRoot ('/' :: q) = ("/".data) := by
    unfold pathRoot
    rw [hpre2]
    simp [hslash]
  have hcomp : ∀ comp ∈ splitOnChar '/' q, keepComp comp = true := by
    intro comp hc
    have h1 := (h comp hc).1
    have h2 := (h comp hc).2
    simp [keepComp, h1, h2]
  have hpc : pathComponents ('/' :: q) = splitOnChar '/' q := by
    rw [pathComponents, splitOnChar_cons_sep]
    rw [show List.filter keepComp ([] :: splitOnChar '/' q) =
        List.filter keepComp (splitOnChar '/' q) from by
      simp [List.filter_cons, keepComp]]
    exact List.filter_eq_self.mpr hcomp
  have hmain : pathRoot ('/' :: q) ++ joinSep '/' (pathComponents ('/' :: q)) =
      '/' :: q := by
    rw [hroot, hpc, joinSep_splitOnChar]
    rfl
  have hstr : pyPathStr ('/' :: q) =
      if pathRoot ('/' :: q) ++ joinSep '/' (pathComponents ('/' :: q)) = [] then
        (".".data)
      else pathRoot ('/' :: q) ++ joinSep '/' (pathComponents ('/' :: q)) := rfl
  show pyPathStr ('/' :: q) = '/' :: q
  rw [hstr, hmain, if_neg (List.cons_ne_nil '/' q)]

/-- C8 witness: the already-normal path `/app/x` is preserved verbatim in
`full_path`. -/
theorem full_path_preserved_witness :
    (extract_url_parts ("example".data) ([]) ("com".data) ("https".data)
      ('/' :: ("app/x".data))).full_path = '/' :: ("app/x".data) :=
  full_path_preserved_on_normal_paths ("example".data) ([]) ("com".data)
    ("https".data) ("app/x".data) (by decide)

/-- Entries passing the output filter contain no marker character and
hence no date placeholder. -/
theorem keepEntry_no_markers {e : List Char} (h : keepEntry e = true) :
    '%' ∉ e ∧ '$' ∉ e ∧ ¬ ("%y".data) <:+: e ∧ ¬ ("%m".data) <:+: e ∧
      ¬ ("%d".data) <:+: e := by
  have hsplit : containsSub ("%".data) e = false ∧ containsSub ("$".data) e = false := by
    simpa [keepEntry] using h
  have h1 : ¬ ("%".data) <:+: e := by
    intro hin
    have hc := containsSub_iff.mpr hin
    rw [hsplit.1] at hc
    cases hc
  have h2 : ¬ ("$".data) <:+: e := by
    intro hin
    have hc := containsSub_iff.mpr hin
    rw [hsplit.2] at hc
    cases hc
  have hpct : '%' ∉ e := fun hm => h1 (singleton_infix_iff.mpr hm)
  have hdol : '$' ∉ e := fun hm => h2 (singleton_infix_iff.mpr hm)
  refine ⟨hpct, hdol, ?_, ?_, ?_⟩
  · intro hin
    exact hpct (hin.subset (by decide))
  · intro hin
    exact hpct (hin.subset (by decide))
  · intro hin
    exact hpct (hin.subset (by decide))

/-- C6: every entry emitted to stdout (the `runMain` result) or written to
the output file (`saveResults`) contains neither `%` nor `$`, and in
particular no emitted entry contains `%y`, `%m`, or `%d` — whatever the
configuration, including every one with an omitted date range. -/
theorem output_no_unresolved_markers :
    (∀ (args : Args) (readList : List Char → List (List Char))
      (loadPatternsOracle : Option (List Char) → List (List Char))
      (decompose : List Char → UrlVars) (stdinUrls : List (List Char))
      (out : List (List Char)) (e : List Char),
      runMain args readList loadPatternsOracle decompose stdinUrls = .ok out →
      e ∈ out →
      '%' ∉ e ∧ '$' ∉ e ∧ ¬ ("%y".data) <:+: e ∧ ¬ ("%m".data) <:+: e ∧
        ¬ ("%d".data) <:+: e) ∧
    (∀ (o : Option (List Char)) (results c : List (List Char)) (e : List Char),
      saveResults o results = some c → e ∈ c →
      '%' ∉ e ∧ '$' ∉ e ∧ ¬ ("%y".data) <:+: e ∧ ¬ ("%m".data) <:+: e ∧
        ¬ ("%d".data) <:+: e) := by
  constructor
  · intro args readList loadPatternsOracle decompose stdinUrls out e hrun hmem
    cases hy : generateVariablesList args.yr with
    | error ey =>
      simp only [runMain, hy] at hrun
      exact Except.noConfusion hrun
    | ok years =>
      cases hm2 : generateVariablesList args.mr with
      | error em =>
        simp only [runMain, hy, hm2] at hrun
        exact Except.noConfusion hrun
      | ok months =>
        cases hd : generateVariablesList args.dr with
        | error ed =>
          simp only [runMain, hy, hm2, hd] at hrun
          exact Except.noConfusion hrun
        | ok days =>
          simp only [runMain, hy, hm2, hd, Except.ok.injEq] at hrun
          subst hrun
          exact keepEntry_no_markers (List.mem_filter.mp hmem).2
  · intro o results c e hsave hmem
    cases o with
    | none => cases hsave
    | some f =>
      simp only [saveResults, Option.some.injEq] at hsave
      subst hsave
      exact keepEntry_no_markers (List.mem_filter.mp hmem).2

set_option maxRecDepth 8000 in
/-- C6 witness: a concrete run (template `x`, relative mode, no ranges)
emits exactly the entry `x`, and that entry carries no marker. -/
theorem output_no_unresolved_markers_witness :
    '%' ∉ ("x".data) ∧ '$' ∉ ("x".data) ∧ ¬ ("%y".data) <:+: ("x".data) ∧
      ¬ ("%m".data) <:+: ("x".data) ∧ ¬ ("%d".data) <:+: ("x".data) :=
  output_no_unresolved_markers.1
    { l := none, p := none, o := none, w := none, n := 1, e := none,
      yr := none, mr := none, dr := none, relative := true }
    (fun _ => []) (fun _ => [("x".data)])
    (fun _ =>
      { domain_name := "d".data, scheme := "https".data, subdomain := [],
        tld := "com".data, full_domain := "d.com".data, path := [],
        full_path := ".".data, file_name := [] })
    [("u".data)] [("x".data)] ("x".data) (by rfl) (by decide)

/-- C9: noninterference of the `-e` extension-file option: two runs of
`main` that differ only in the value of the `-e` flag produce identical
output.  The flag is parsed into `Args` but its value is never read, and
the `$ext`/`$b_ext`/`$c_ext` value lists used are always the built-in
constant lists. -/
theorem extension_flag_noninterference (args : Args) (eVal : Option (List Char))
    (readList : List Char → List (List Char))
    (loadPatternsOracle : Option (List Char) → List (List Char))
    (decompose : List Char → UrlVars) (stdinUrls : List (List Char)) :
    runMain { args with e := eVal } readList loadPatternsOracle decompose stdinUrls =
    runMain args readList loadPatternsOracle decompose stdinUrls := rfl

/-- Placeholder tokens of the template vocabulary (the substrings the
substitution passes of the source replace or test). -/
def placeholderTokens : List (List Char) :=
  (["$domain_name", "$subdomain", "$tld", "$full_domain", "$path",
    "$full_path", "$file_name", "$word", "$ext", "$num", "$b_ext",
    "$c_ext", "%y", "%m", "%d"]).map String.data

/-- C10: over-suppression of literal marker characters: a fully
substituted entry containing a literal `%` or `$` originating from input
data — containing no placeholder token at all — is suppressed from both
stdout and the output file, because the final filter tests the bare
characters `%` and `$`. -/
theorem literal_marker_over_suppression (results : List (List Char)) (e : List Char)
    (_hmem : e ∈ results) (_hnotok : ∀ t ∈ placeholderTokens, ¬ t <:+: e)
    (hmark : '%' ∈ e ∨ '$' ∈ e) :
    e ∉ stdoutResults results ∧
    (∀ (o : List Char) (c : List (List Char)),
      saveResults (some o) results = some c → e ∉ c) := by
  have hkeep : keepEntry e = false := by
    rcases hmark with hm | hm
    · have hc : containsSub ("%".data) e = true :=
        containsSub_iff.mpr (singleton_infix_iff.mpr hm)
      simp [keepEntry, hc]
    · have hc : containsSub ("$".data) e = true :=
        containsSub_iff.mpr (singleton_infix_iff.mpr hm)
      simp [keepEntry, hc]
  constructor
  · intro hout
    have hfil := (List.mem_filter.mp hout).2
    rw [hkeep] at hfil
    cases hfil
  · intro o c hsave hout
    simp only [saveResults, Option.some.injEq] at hsave
    subst hsave
    have hfil := (List.mem_filter.mp hout).2
    rw [hkeep] at hfil
    cases hfil

/-- C10 witness: the fully substituted entry `/a%20b` (a percent-encoded
path, no placeholder token) is suppressed from stdout. -/
theorem literal_marker_over_suppression_witness :
    ("/a%20b".data) ∉ stdoutResults [("/a%20b".data)] :=
  (literal_marker_over_suppression [("/a%20b".data)] ("/a%20b".data)
    (by decide) (by decide) (Or.inl (by decide))).1

end Fback
